import Mathlib

/-!
Verification of the pr-reviewer service (teams, users, pull requests,
automatic reviewer assignment).

The Go program is shallowly embedded: the PostgreSQL tables of
`internal/db/storage.go` become lists (`teams`, `users`, `prs`) inside a
`Storage` record, the storage-layer functions become pure functions on
`Storage`, and the business-logic layer of `internal/service/service.go`
becomes functions returning `Except ServiceError α × Storage` (the second
component is the store after the call; error paths leave it untouched,
exactly as in the Go code, where nothing is persisted on an error return).
Wall-clock time (`time.Now()`) is passed in as an explicit `Nat` argument.
-/

namespace PrReviewer

/-- A row of the `users` table (`models.User`). -/
structure User where
  userId : String
  username : String
  teamName : String
  isActive : Bool
deriving DecidableEq, Repr

/-- A member entry inside a `models.Team` payload. -/
structure TeamMember where
  userId : String
  username : String
  isActive : Bool
deriving DecidableEq, Repr

/-- A `models.Team`: a name plus its ordered member list. -/
structure Team where
  teamName : String
  members : List TeamMember
deriving DecidableEq, Repr

/-- `models.PullRequestStatus`: the two-state lifecycle. -/
inductive PullRequestStatus where
  | OPEN
  | MERGED
deriving DecidableEq, Repr

/-- A row of the `pull_requests` table (`models.PullRequest`). -/
structure PullRequest where
  pullRequestId : String
  pullRequestName : String
  authorId : String
  status : PullRequestStatus
  assignedReviewers : List String
  createdAt : Option Nat
  mergedAt : Option Nat
deriving DecidableEq, Repr

/-- `models.PullRequestShort`: the projection returned by the review-queue query. -/
structure PullRequestShort where
  pullRequestId : String
  pullRequestName : String
  authorId : String
  status : PullRequestStatus
deriving DecidableEq, Repr

/-- The business-error values of `service.go` (`ErrTeamExists` … `ErrNoCandidate`),
identified by which `models.ErrorResponseErrorCode` each carries. -/
inductive ServiceError where
  | teamExists
  | teamNotFound
  | userNotFound
  | prExists
  | prNotFound
  | prMerged
  | reviewerNotAssigned
  | noCandidate
deriving DecidableEq, Repr

/-- The database state: the three tables of the goose migration, each as a
list in row-insertion order. -/
structure Storage where
  teams : List String
  users : List User
  prs : List PullRequest
deriving DecidableEq, Repr

namespace Db

/-- `Storage.TeamExists`: `SELECT EXISTS(... FROM teams WHERE team_name=$1)`. -/
def TeamExists (st : Storage) (name : String) : Bool :=
  st.teams.contains name

/-- `ON CONFLICT (user_id) DO UPDATE`: replace the row with the matching
primary key in place, or append a fresh row. -/
def upsertUser : List User → User → List User
  | [], u => [u]
  | v :: rest, u =>
    if v.userId = u.userId then u :: rest
    else v :: upsertUser rest u

/-- `Storage.SaveUser`: upsert one user row. -/
def SaveUser (st : Storage) (u : User) : Storage :=
  { st with users := upsertUser st.users u }

/-- Turn a team-payload member into a `users` row bound to the team. -/
def memberToUser (teamName : String) (m : TeamMember) : User :=
  { userId := m.userId, username := m.username, teamName := teamName,
    isActive := m.isActive }

/-- `Storage.SaveTeam`: insert the team name (`ON CONFLICT DO NOTHING`),
delete all user rows bound to the team, then re-insert the members. -/
def SaveTeam (st : Storage) (team : Team) : Storage :=
  let teams' := if st.teams.contains team.teamName then st.teams
                else st.teams ++ [team.teamName]
  let users' := st.users.filter (fun u => u.teamName ≠ team.teamName)
  { st with
    teams := teams'
    users := team.members.foldl
      (fun us m => upsertUser us (memberToUser team.teamName m)) users' }

/-- Project a `users` row back to a team-payload member. -/
def userToMember (u : User) : TeamMember :=
  { userId := u.userId, username := u.username, isActive := u.isActive }

/-- `Storage.GetTeam`: collect the user rows bound to the name; a team with
zero member rows is reported as nonexistent (`len(members) == 0` → error). -/
def GetTeam (st : Storage) (name : String) : Option Team :=
  let members := (st.users.filter (fun u => u.teamName = name)).map userToMember
  if members.isEmpty then none
  else some { teamName := name, members := members }

/-- `Storage.GetUser`: primary-key lookup in `users`. -/
def GetUser (st : Storage) (id : String) : Option User :=
  st.users.find? (fun u => u.userId = id)

/-- `Storage.PullRequestExists`: existence check on the `pull_requests` key. -/
def PullRequestExists (st : Storage) (id : String) : Bool :=
  st.prs.any (fun pr => pr.pullRequestId = id)

/-- `ON CONFLICT (pull_request_id) DO UPDATE` of `SavePullRequest`: the update
clause rewrites name, reviewers, status and `merged_at` but not `author_id`
or `created_at`, which keep the stored row's values. -/
def upsertPullRequest : List PullRequest → PullRequest → List PullRequest
  | [], pr => [pr]
  | e :: rest, pr =>
    if e.pullRequestId = pr.pullRequestId then
      { pr with authorId := e.authorId, createdAt := e.createdAt } :: rest
    else e :: upsertPullRequest rest pr

/-- `Storage.SavePullRequest`: upsert one pull-request row. -/
def SavePullRequest (st : Storage) (pr : PullRequest) : Storage :=
  { st with prs := upsertPullRequest st.prs pr }

/-- `Storage.GetPullRequest`: primary-key lookup in `pull_requests`. -/
def GetPullRequest (st : Storage) (id : String) : Option PullRequest :=
  st.prs.find? (fun pr => pr.pullRequestId = id)

/-- `Storage.GetAllPullRequests`: enumerate every stored pull request. -/
def GetAllPullRequests (st : Storage) : List PullRequest :=
  st.prs

end Db

namespace Service

/-- `Service.CreateTeam`: reject a registered name, otherwise upsert every
member as a user and save the team. -/
def CreateTeam (st : Storage) (team : Team) : Except ServiceError Unit × Storage :=
  if Db.TeamExists st team.teamName then (.error .teamExists, st)
  else
    let st₁ := team.members.foldl
      (fun s m => Db.SaveUser s (Db.memberToUser team.teamName m)) st
    (.ok (), Db.SaveTeam st₁ team)

/-- `Service.GetTeam`: translate a store miss into `ErrTeamNotFound`. -/
def GetTeam (st : Storage) (name : String) : Except ServiceError Team :=
  match Db.GetTeam st name with
  | none => .error .teamNotFound
  | some team => .ok team

/-- `Service.SetUserActive`: fetch the user, flip its `IsActive` flag, save. -/
def SetUserActive (st : Storage) (userId : String) (isActive : Bool) :
    Except ServiceError User × Storage :=
  match Db.GetUser st userId with
  | none => (.error .userNotFound, st)
  | some user =>
    let user' := { user with isActive := isActive }
    (.ok user', Db.SaveUser st user')

/-- The loop body of `findActiveReviewers`: walk the member list, skip the
author, re-fetch each member from the store and keep it only when found and
active, breaking once `maxCount` have been collected. -/
def findActiveReviewersAux (st : Storage) (excludeUserId : String) (maxCount : Nat) :
    List TeamMember → List String → List String
  | [], reviewers => reviewers
  | member :: rest, reviewers =>
    if member.userId ≠ excludeUserId then
      match Db.GetUser st member.userId with
      | some user =>
        if user.isActive then
          let reviewers' := reviewers ++ [member.userId]
          if maxCount ≤ reviewers'.length then reviewers'
          else findActiveReviewersAux st excludeUserId maxCount rest reviewers'
        else findActiveReviewersAux st excludeUserId maxCount rest reviewers
      | none => findActiveReviewersAux st excludeUserId maxCount rest reviewers
    else findActiveReviewersAux st excludeUserId maxCount rest reviewers

/-- `Service.findActiveReviewers`. -/
def findActiveReviewers (st : Storage) (team : Team) (excludeUserId : String)
    (maxCount : Nat) : List String :=
  findActiveReviewersAux st excludeUserId maxCount team.members []

/-- `Service.CreatePullRequest`: duplicate-id check, author lookup, team
lookup, reviewer selection (hard failure on an empty selection), persist. -/
def CreatePullRequest (st : Storage) (prId prName authorId : String) (now : Nat) :
    Except ServiceError PullRequest × Storage :=
  if Db.PullRequestExists st prId then (.error .prExists, st)
  else
    match Db.GetUser st authorId with
    | none => (.error .userNotFound, st)
    | some author =>
      match Db.GetTeam st author.teamName with
      | none => (.error .teamNotFound, st)
      | some team =>
        let reviewers := findActiveReviewers st team authorId 2
        if reviewers.length = 0 then (.error .noCandidate, st)
        else
          let pr : PullRequest :=
            { pullRequestId := prId, pullRequestName := prName,
              authorId := authorId, status := .OPEN,
              assignedReviewers := reviewers,
              createdAt := some now, mergedAt := none }
          (.ok pr, Db.SavePullRequest st pr)

/-- `Service.MergePullRequest`: idempotent transition to `MERGED`. -/
def MergePullRequest (st : Storage) (prId : String) (now : Nat) :
    Except ServiceError PullRequest × Storage :=
  match Db.GetPullRequest st prId with
  | none => (.error .prNotFound, st)
  | some pr =>
    if pr.status ≠ .MERGED then
      let pr' := { pr with status := .MERGED, mergedAt := some now }
      (.ok pr', Db.SavePullRequest st pr')
    else (.ok pr, st)

/-- The search-and-replace loop of `ReassignReviewer`: replace the first
occurrence of the old id, reporting `none` when it is absent. -/
def replaceFirstReviewer (oldReviewerId newReviewerId : String) :
    List String → Option (List String)
  | [] => none
  | reviewerId :: rest =>
    if reviewerId = oldReviewerId then some (newReviewerId :: rest)
    else (replaceFirstReviewer oldReviewerId newReviewerId rest).map
      (fun rs => reviewerId :: rs)

/-- `Service.ReassignReviewer`. -/
def ReassignReviewer (st : Storage) (prId oldReviewerId newReviewerId : String) :
    Except ServiceError PullRequest × Storage :=
  match Db.GetPullRequest st prId with
  | none => (.error .prNotFound, st)
  | some pr =>
    if pr.status = .MERGED then (.error .prMerged, st)
    else
      match replaceFirstReviewer oldReviewerId newReviewerId pr.assignedReviewers with
      | none => (.error .reviewerNotAssigned, st)
      | some reviewers' =>
        let pr' := { pr with assignedReviewers := reviewers' }
        (.ok pr', Db.SavePullRequest st pr')

/-- The short projection built by `GetUserPullRequests`. -/
def toShort (pr : PullRequest) : PullRequestShort :=
  { pullRequestId := pr.pullRequestId, pullRequestName := pr.pullRequestName,
    authorId := pr.authorId, status := pr.status }

/-- The double loop of `GetUserPullRequests`: keep each pull request whose
reviewer list contains the user (the inner loop breaks at the first hit). -/
def getUserPullRequestsAux (userId : String) :
    List PullRequest → List PullRequestShort
  | [] => []
  | pr :: rest =>
    if pr.assignedReviewers.any (fun reviewerId => reviewerId = userId) then
      toShort pr :: getUserPullRequestsAux userId rest
    else getUserPullRequestsAux userId rest

/-- `Service.GetUserPullRequests`. -/
def GetUserPullRequests (st : Storage) (userId : String) : List PullRequestShort :=
  getUserPullRequestsAux userId (Db.GetAllPullRequests st)

end Service

/-- One state-mutating call of the service API. -/
inductive Op where
  | createTeam (team : Team)
  | setUserActive (userId : String) (isActive : Bool)
  | createPullRequest (prId prName authorId : String) (now : Nat)
  | mergePullRequest (prId : String) (now : Nat)
  | reassignReviewer (prId oldReviewerId newReviewerId : String)
deriving Repr

/-- The store after one service call (error paths leave it unchanged). -/
def step (st : Storage) : Op → Storage
  | .createTeam team => (Service.CreateTeam st team).2
  | .setUserActive userId isActive => (Service.SetUserActive st userId isActive).2
  | .createPullRequest prId prName authorId now =>
      (Service.CreatePullRequest st prId prName authorId now).2
  | .mergePullRequest prId now => (Service.MergePullRequest st prId now).2
  | .reassignReviewer prId o n => (Service.ReassignReviewer st prId o n).2

/-- Run a sequence of service calls from a starting store. -/
def runOps (st : Storage) : List Op → Storage
  | [] => st
  | op :: ops => runOps (step st op) ops

/-- The member predicate that `findActiveReviewers` effectively selects by:
not the author, and currently stored as an active user. -/
def isActiveUser (st : Storage) (id : String) : Bool :=
  match Db.GetUser st id with
  | some u => u.isActive
  | none => false

/-- Eligibility of a team member as a reviewer for a given author. -/
def eligible (st : Storage) (excludeUserId : String) (m : TeamMember) : Bool :=
  m.userId ≠ excludeUserId && isActiveUser st m.userId

/-- Invariant: no stored pull request lists its own author as a reviewer. -/
def authorNotReviewer (st : Storage) : Prop :=
  ∀ pr ∈ st.prs, pr.authorId ∉ pr.assignedReviewers

/-- A team name that is registered in the `teams` table while no user row is
bound to it: `CreateTeam` can produce this, and `GetTeam` then reports the
team as nonexistent. -/
def phantomTeam (name : String) (st : Storage) : Prop :=
  name ∈ st.teams ∧ ∀ u ∈ st.users, u.teamName ≠ name

/-! ### Concrete states used to instantiate the theorems -/

/-- The empty database. -/
def stEmpty : Storage := ⟨[], [], []⟩

/-- A four-member team: `a`, `b`, `d` active, `c` inactive. -/
def teamW : Team :=
  ⟨"t", [⟨"a", "A", true⟩, ⟨"b", "B", true⟩, ⟨"c", "C", false⟩, ⟨"d", "D", true⟩]⟩

/-- The database after registering `teamW`. -/
def stTeam : Storage := (Service.CreateTeam stEmpty teamW).2

/-- `stTeam` after `a` opens pull request `pr1` (reviewers `b` and `d`). -/
def stPR : Storage := (Service.CreatePullRequest stTeam "pr1" "Feature" "a" 5).2

/-- `stPR` after `pr1` is merged at time 9. -/
def stMerged : Storage := (Service.MergePullRequest stPR "pr1" 9).2

/-- A team whose only active member is `e`: no reviewer candidate for `e`. -/
def stTeamSolo : Storage :=
  (Service.CreateTeam stPR ⟨"s", [⟨"e", "E", true⟩, ⟨"f", "F", false⟩]⟩).2

/-- A run that ends with the author reassigned onto their own pull request. -/
def stAuthorReviewer : Storage :=
  runOps stEmpty
    [ .createTeam ⟨"t", [⟨"a", "A", true⟩, ⟨"b", "B", true⟩]⟩,
      .createPullRequest "pr1" "PR" "a" 0,
      .reassignReviewer "pr1" "b" "a" ]

/-! ### Lemmas about the storage layer -/

lemma getUser_userId {st : Storage} {id : String} {u : User}
    (h : Db.GetUser st id = some u) : u.userId = id := by
  have := List.find?_some h
  exact of_decide_eq_true this

lemma getUser_mem {st : Storage} {id : String} {u : User}
    (h : Db.GetUser st id = some u) : u ∈ st.users :=
  List.mem_of_find?_eq_some h

lemma find_upsertUser_self (l : List User) (u : User) :
    (Db.upsertUser l u).find? (fun v => v.userId = u.userId) = some u := by
  induction l with
  | nil => simp [Db.upsertUser]
  | cons v rest ih =>
    by_cases h : v.userId = u.userId
    · simp [Db.upsertUser, h]
    · simp [Db.upsertUser, h, List.find?_cons, ih]

lemma find_upsertUser_other (l : List User) (u : User) (id : String)
    (h : id ≠ u.userId) :
    (Db.upsertUser l u).find? (fun v => v.userId = id)
      = l.find? (fun v => v.userId = id) := by
  have hu : ¬ (u.userId = id) := fun hh => h hh.symm
  induction l with
  | nil => simp [Db.upsertUser, hu]
  | cons v rest ih =>
    by_cases hv : v.userId = u.userId
    · have hvid : ¬ (v.userId = id) := fun hh => hu (hv ▸ hh)
      rw [show Db.upsertUser (v :: rest) u = u :: rest from by simp [Db.upsertUser, hv]]
      rw [List.find?_cons_of_neg _ (by simpa using hu),
          List.find?_cons_of_neg _ (by simpa using hvid)]
    · rw [show Db.upsertUser (v :: rest) u = v :: Db.upsertUser rest u from by
        simp [Db.upsertUser, hv]]
      by_cases hvi : v.userId = id
      · rw [List.find?_cons_of_pos _ (by simpa using hvi),
            List.find?_cons_of_pos _ (by simpa using hvi)]
      · rw [List.find?_cons_of_neg _ (by simpa using hvi),
            List.find?_cons_of_neg _ (by simpa using hvi), ih]

lemma mem_upsertUser {l : List User} {u v : User}
    (h : v ∈ Db.upsertUser l u) : v ∈ l ∨ v = u := by
  induction l with
  | nil => simp [Db.upsertUser] at h; exact Or.inr h
  | cons w rest ih =>
    by_cases hw : w.userId = u.userId
    · simp only [Db.upsertUser, hw, if_pos] at h
      rcases List.mem_cons.mp h with h | h
      · exact Or.inr h
      · exact Or.inl (List.mem_cons_of_mem _ h)
    · simp only [Db.upsertUser, hw, if_neg, not_false_iff] at h
      rcases List.mem_cons.mp h with h | h
      · exact Or.inl (h ▸ List.mem_cons_self _ _)
      · rcases ih h with h | h
        · exact Or.inl (List.mem_cons_of_mem _ h)
        · exact Or.inr h

lemma find_upsertPullRequest_self (l : List PullRequest) (pr : PullRequest) :
    (Db.upsertPullRequest l pr).find? (fun e => e.pullRequestId = pr.pullRequestId)
      = some (match l.find? (fun e => e.pullRequestId = pr.pullRequestId) with
              | some e => { pr with authorId := e.authorId, createdAt := e.createdAt }
              | none => pr) := by
  induction l with
  | nil => simp [Db.upsertPullRequest]
  | cons e rest ih =>
    by_cases h : e.pullRequestId = pr.pullRequestId
    · simp [Db.upsertPullRequest, h, List.find?_cons]
    · simp [Db.upsertPullRequest, h, List.find?_cons, ih]

lemma mem_upsertPullRequest {l : List PullRequest} {pr x : PullRequest}
    (hx : x ∈ Db.upsertPullRequest l pr) :
    x ∈ l ∨ x = pr
      ∨ ∃ e, l.find? (fun e => e.pullRequestId = pr.pullRequestId) = some e
          ∧ x = { pr with authorId := e.authorId, createdAt := e.createdAt } := by
  induction l with
  | nil =>
    simp [Db.upsertPullRequest] at hx
    exact Or.inr (Or.inl hx)
  | cons e rest ih =>
    by_cases h : e.pullRequestId = pr.pullRequestId
    · simp only [Db.upsertPullRequest, h, if_pos] at hx
      rcases List.mem_cons.mp hx with hx | hx
      · refine Or.inr (Or.inr ⟨e, ?_, hx⟩)
        simp [List.find?_cons, h]
      · exact Or.inl (List.mem_cons_of_mem _ hx)
    · simp only [Db.upsertPullRequest, h, if_neg, not_false_iff] at hx
      rcases List.mem_cons.mp hx with hx | hx
      · exact Or.inl (hx ▸ List.mem_cons_self _ _)
      · rcases ih hx with hh | hh | ⟨e', he', hxe⟩
        · exact Or.inl (List.mem_cons_of_mem _ hh)
        · exact Or.inr (Or.inl hh)
        · refine Or.inr (Or.inr ⟨e', ?_, hxe⟩)
          rw [List.find?_cons_of_neg _ (by simpa using h)]
          exact he'

lemma upsertPullRequest_of_fresh {l : List PullRequest} {pr : PullRequest}
    (h : ∀ e ∈ l, e.pullRequestId ≠ pr.pullRequestId) :
    Db.upsertPullRequest l pr = l ++ [pr] := by
  induction l with
  | nil => simp [Db.upsertPullRequest]
  | cons e rest ih =>
    have he : e.pullRequestId ≠ pr.pullRequestId := h e (List.mem_cons_self _ _)
    simp only [Db.upsertPullRequest, he, if_neg, not_false_iff, List.cons_append]
    rw [ih (fun x hx => h x (List.mem_cons_of_mem _ hx))]

lemma getPullRequest_pullRequestId {st : Storage} {id : String} {pr : PullRequest}
    (h : Db.GetPullRequest st id = some pr) : pr.pullRequestId = id := by
  have := List.find?_some h
  exact of_decide_eq_true this

lemma getPullRequest_mem {st : Storage} {id : String} {pr : PullRequest}
    (h : Db.GetPullRequest st id = some pr) : pr ∈ st.prs :=
  List.mem_of_find?_eq_some h

lemma getPullRequest_savePullRequest_self (st : Storage) (pr : PullRequest) :
    Db.GetPullRequest (Db.SavePullRequest st pr) pr.pullRequestId
      = some (match Db.GetPullRequest st pr.pullRequestId with
              | some e => { pr with authorId := e.authorId, createdAt := e.createdAt }
              | none => pr) := by
  simpa [Db.GetPullRequest, Db.SavePullRequest] using
    find_upsertPullRequest_self st.prs pr

/-! ### Lemmas about `replaceFirstReviewer` -/

lemma replaceFirstReviewer_eq_none {o n : String} {l : List String}
    (h : o ∉ l) : Service.replaceFirstReviewer o n l = none := by
  induction l with
  | nil => rfl
  | cons r rest ih =>
    have hr : ¬ (r = o) := fun hh => h (hh ▸ List.mem_cons_self _ _)
    simp only [Service.replaceFirstReviewer, hr, if_neg, not_false_iff]
    rw [ih (fun hh => h (List.mem_cons_of_mem _ hh))]
    rfl

lemma mem_replaceFirstReviewer {o n : String} {l rs : List String}
    (h : Service.replaceFirstReviewer o n l = some rs) :
    ∀ x ∈ rs, x = n ∨ x ∈ l := by
  induction l generalizing rs with
  | nil => simp [Service.replaceFirstReviewer] at h
  | cons r rest ih =>
    by_cases hr : r = o
    · simp only [Service.replaceFirstReviewer, hr, if_pos, Option.some.injEq] at h
      intro x hx
      rcases List.mem_cons.mp (h ▸ hx) with hx | hx
      · exact Or.inl hx
      · exact Or.inr (List.mem_cons_of_mem _ hx)
    · simp only [Service.replaceFirstReviewer, hr, if_neg, not_false_iff,
        Option.map_eq_some'] at h
      rcases h with ⟨rs', hrs', hmap⟩
      intro x hx
      rcases List.mem_cons.mp (hmap ▸ hx) with hx | hx
      · exact Or.inr (hx ▸ List.mem_cons_self _ _)
      · rcases ih hrs' x hx with hh | hh
        · exact Or.inl hh
        · exact Or.inr (List.mem_cons_of_mem _ hh)

/-! ### Characterization of `findActiveReviewers` -/

lemma findActiveReviewersAux_eq (st : Storage) (ex : String) (k : Nat) :
    ∀ (ms : List TeamMember) (acc : List String), acc.length < k →
      Service.findActiveReviewersAux st ex k ms acc
        = acc ++ ((ms.filter (eligible st ex)).map TeamMember.userId).take (k - acc.length) := by
  intro ms
  induction ms with
  | nil => intro acc _; simp [Service.findActiveReviewersAux]
  | cons m rest ih =>
    intro acc h
    by_cases hex : m.userId = ex
    · have hne : eligible st ex m = false := by
        simp [eligible, hex]
      rw [show Service.findActiveReviewersAux st ex k (m :: rest) acc
            = Service.findActiveReviewersAux st ex k rest acc from by
          simp [Service.findActiveReviewersAux, hex]]
      rw [ih acc h, List.filter_cons_of_neg (by simp [hne])]
    · cases hu : Db.GetUser st m.userId with
      | none =>
        have hne : eligible st ex m = false := by
          simp [eligible, isActiveUser, hu]
        rw [show Service.findActiveReviewersAux st ex k (m :: rest) acc
              = Service.findActiveReviewersAux st ex k rest acc from by
            simp [Service.findActiveReviewersAux, hex, hu]]
        rw [ih acc h, List.filter_cons_of_neg (by simp [hne])]
      | some u =>
        by_cases hact : u.isActive
        · have helig : eligible st ex m = true := by
            simp [eligible, isActiveUser, hex, hu, hact]
          rw [List.filter_cons_of_pos (by simp [helig])]
          by_cases hk : k ≤ (acc ++ [m.userId]).length
          · rw [show Service.findActiveReviewersAux st ex k (m :: rest) acc
                  = acc ++ [m.userId] from by
              simp only [Service.findActiveReviewersAux, hu, hact]
              have hk' : k ≤ acc.length + 1 := by simpa using hk
              simp [hex, hk']]
            have hk1 : k - acc.length = 1 := by
              simp only [List.length_append, List.length_cons, List.length_nil] at hk
              omega
            simp [hk1]
          · rw [show Service.findActiveReviewersAux st ex k (m :: rest) acc
                  = Service.findActiveReviewersAux st ex k rest (acc ++ [m.userId]) from by
              simp only [Service.findActiveReviewersAux, hu, hact]
              have hk' : ¬ k ≤ acc.length + 1 := by simpa using hk
              simp [hex, hk']]
            have hlen : (acc ++ [m.userId]).length < k := by omega
            rw [ih _ hlen]
            have hk2 : k - acc.length = (k - (acc ++ [m.userId]).length) + 1 := by
              simp only [List.length_append, List.length_cons, List.length_nil] at hk ⊢
              omega
            rw [hk2]
            simp [List.take_succ_cons, List.append_assoc]
        · have hne : eligible st ex m = false := by
            simp [eligible, isActiveUser, hu, hact]
          rw [show Service.findActiveReviewersAux st ex k (m :: rest) acc
                = Service.findActiveReviewersAux st ex k rest acc from by
              simp [Service.findActiveReviewersAux, hex, hu, hact]]
          rw [ih acc h, List.filter_cons_of_neg (by simp [hne])]

/-- `findActiveReviewers team ex k` is the first `k` eligible member ids, in
member order. -/
lemma findActiveReviewers_eq (st : Storage) (team : Team) (ex : String) (k : Nat)
    (hk : 0 < k) :
    Service.findActiveReviewers st team ex k
      = ((team.members.filter (eligible st ex)).map TeamMember.userId).take k := by
  have := findActiveReviewersAux_eq st ex k team.members [] (by simpa using hk)
  simpa [Service.findActiveReviewers] using this

lemma findActiveReviewersAux_mem (st : Storage) (ex : String) (k : Nat) :
    ∀ (ms : List TeamMember) (acc : List String) (x : String),
      x ∈ Service.findActiveReviewersAux st ex k ms acc →
      x ∈ acc ∨ (x ≠ ex ∧ isActiveUser st x = true) := by
  intro ms
  induction ms with
  | nil => intro acc x hx; exact Or.inl hx
  | cons m rest ih =>
    intro acc x hx
    by_cases hex : m.userId = ex
    · rw [show Service.findActiveReviewersAux st ex k (m :: rest) acc
            = Service.findActiveReviewersAux st ex k rest acc from by
          simp [Service.findActiveReviewersAux, hex]] at hx
      exact ih acc x hx
    · cases hu : Db.GetUser st m.userId with
      | none =>
        rw [show Service.findActiveReviewersAux st ex k (m :: rest) acc
              = Service.findActiveReviewersAux st ex k rest acc from by
            simp [Service.findActiveReviewersAux, hex, hu]] at hx
        exact ih acc x hx
      | some u =>
        by_cases hact : u.isActive
        · have hnew : x ∈ acc ++ [m.userId] → x ∈ acc ∨ (x ≠ ex ∧ isActiveUser st x = true) := by
            intro hx'
            rcases List.mem_append.mp hx' with hx' | hx'
            · exact Or.inl hx'
            · have hxm : x = m.userId := by simpa using hx'
              refine Or.inr ⟨hxm ▸ hex, ?_⟩
              rw [hxm]
              simp [isActiveUser, hu, hact]
          by_cases hk : k ≤ (acc ++ [m.userId]).length
          · rw [show Service.findActiveReviewersAux st ex k (m :: rest) acc
                  = acc ++ [m.userId] from by
                simp only [Service.findActiveReviewersAux, hu, hact]
                have hk' : k ≤ acc.length + 1 := by simpa using hk
                simp [hex, hk']] at hx
            exact hnew hx
          · rw [show Service.findActiveReviewersAux st ex k (m :: rest) acc
                  = Service.findActiveReviewersAux st ex k rest (acc ++ [m.userId]) from by
                simp only [Service.findActiveReviewersAux, hu, hact]
                have hk' : ¬ k ≤ acc.length + 1 := by simpa using hk
                simp [hex, hk']] at hx
            rcases ih _ x hx with hx' | hx'
            · exact hnew hx'
            · exact Or.inr hx'
        · rw [show Service.findActiveReviewersAux st ex k (m :: rest) acc
                = Service.findActiveReviewersAux st ex k rest acc from by
              simp [Service.findActiveReviewersAux, hex, hu, hact]] at hx
          exact ih acc x hx

lemma mem_findActiveReviewers {st : Storage} {team : Team} {ex : String} {k : Nat}
    {x : String} (hx : x ∈ Service.findActiveReviewers st team ex k) :
    x ≠ ex ∧ isActiveUser st x = true := by
  rcases findActiveReviewersAux_mem st ex k team.members [] x hx with h | h
  · simp at h
  · exact h

/-! ### Frame lemmas: which tables each operation leaves untouched -/

lemma foldl_saveUser_components (tn : String) :
    ∀ (ms : List TeamMember) (st : Storage),
      (ms.foldl (fun s m => Db.SaveUser s (Db.memberToUser tn m)) st).teams = st.teams
      ∧ (ms.foldl (fun s m => Db.SaveUser s (Db.memberToUser tn m)) st).prs = st.prs
      ∧ (ms.foldl (fun s m => Db.SaveUser s (Db.memberToUser tn m)) st).users
          = ms.foldl (fun us m => Db.upsertUser us (Db.memberToUser tn m)) st.users := by
  intro ms
  induction ms with
  | nil => intro st; exact ⟨rfl, rfl, rfl⟩
  | cons m rest ih =>
    intro st
    simpa [Db.SaveUser] using ih (Db.SaveUser st (Db.memberToUser tn m))

lemma createTeam_prs (st : Storage) (team : Team) :
    (Service.CreateTeam st team).2.prs = st.prs := by
  unfold Service.CreateTeam
  split
  · rfl
  · simpa [Db.SaveTeam] using (foldl_saveUser_components team.teamName team.members st).2.1

lemma setUserActive_prs (st : Storage) (userId : String) (isActive : Bool) :
    (Service.SetUserActive st userId isActive).2.prs = st.prs := by
  unfold Service.SetUserActive
  cases Db.GetUser st userId <;> rfl

lemma setUserActive_teams (st : Storage) (userId : String) (isActive : Bool) :
    (Service.SetUserActive st userId isActive).2.teams = st.teams := by
  unfold Service.SetUserActive
  cases Db.GetUser st userId <;> rfl

lemma createPullRequest_teams_users (st : Storage) (prId prName authorId : String)
    (now : Nat) :
    (Service.CreatePullRequest st prId prName authorId now).2.teams = st.teams
    ∧ (Service.CreatePullRequest st prId prName authorId now).2.users = st.users := by
  unfold Service.CreatePullRequest
  split
  · exact ⟨rfl, rfl⟩
  · split
    · exact ⟨rfl, rfl⟩
    · split
      · exact ⟨rfl, rfl⟩
      · dsimp only
        split
        · exact ⟨rfl, rfl⟩
        · exact ⟨rfl, rfl⟩

lemma mergePullRequest_teams_users (st : Storage) (prId : String) (now : Nat) :
    (Service.MergePullRequest st prId now).2.teams = st.teams
    ∧ (Service.MergePullRequest st prId now).2.users = st.users := by
  unfold Service.MergePullRequest
  split
  · exact ⟨rfl, rfl⟩
  · split
    · exact ⟨rfl, rfl⟩
    · exact ⟨rfl, rfl⟩

lemma reassignReviewer_teams_users (st : Storage) (prId o n : String) :
    (Service.ReassignReviewer st prId o n).2.teams = st.teams
    ∧ (Service.ReassignReviewer st prId o n).2.users = st.users := by
  unfold Service.ReassignReviewer
  split
  · exact ⟨rfl, rfl⟩
  · split
    · exact ⟨rfl, rfl⟩
    · split
      · exact ⟨rfl, rfl⟩
      · exact ⟨rfl, rfl⟩

/-! ### The review-queue projection -/

lemma getUserPullRequestsAux_eq (userId : String) (l : List PullRequest) :
    Service.getUserPullRequestsAux userId l
      = (l.filter (fun pr => decide (userId ∈ pr.assignedReviewers))).map Service.toShort := by
  induction l with
  | nil => rfl
  | cons pr rest ih =>
    by_cases hmem : userId ∈ pr.assignedReviewers
    · have hany : pr.assignedReviewers.any (fun r => r = userId) = true := by
        rw [List.any_eq_true]
        exact ⟨userId, hmem, by simp⟩
      rw [show Service.getUserPullRequestsAux userId (pr :: rest)
            = Service.toShort pr :: Service.getUserPullRequestsAux userId rest from by
          simp [Service.getUserPullRequestsAux, hany]]
      rw [List.filter_cons_of_pos (by simpa using hmem), List.map_cons, ih]
    · have hany : pr.assignedReviewers.any (fun r => r = userId) = false := by
        rw [Bool.eq_false_iff]
        intro hc
        rcases List.any_eq_true.mp hc with ⟨x, hx, hxx⟩
        exact hmem ((of_decide_eq_true hxx) ▸ hx)
      rw [show Service.getUserPullRequestsAux userId (pr :: rest)
            = Service.getUserPullRequestsAux userId rest from by
          simp [Service.getUserPullRequestsAux, hany]]
      rw [List.filter_cons_of_neg (by simpa using hmem), ih]

/-! ### Phantom teams: registered names without member rows -/

lemma getTeam_eq_none_of_noMembers {st : Storage} {name : String}
    (h : ∀ u ∈ st.users, u.teamName ≠ name) : Db.GetTeam st name = none := by
  unfold Db.GetTeam
  have hnil : st.users.filter (fun u => u.teamName = name) = [] := by
    rw [List.filter_eq_nil_iff]
    intro u hu
    simpa using h u hu
  simp [hnil]

lemma upsertUser_teamName {l : List User} {v : User} {name : String}
    (hl : ∀ u ∈ l, u.teamName ≠ name) (hv : v.teamName ≠ name) :
    ∀ u ∈ Db.upsertUser l v, u.teamName ≠ name := by
  intro u hu
  rcases mem_upsertUser hu with h | h
  · exact hl u h
  · exact h ▸ hv

lemma foldl_upsertUser_teamName {name tn : String} (htn : tn ≠ name) :
    ∀ (ms : List TeamMember) (l : List User),
      (∀ u ∈ l, u.teamName ≠ name) →
      ∀ u ∈ ms.foldl (fun us m => Db.upsertUser us (Db.memberToUser tn m)) l,
        u.teamName ≠ name := by
  intro ms
  induction ms with
  | nil => intro l hl; exact hl
  | cons m rest ih =>
    intro l hl
    exact ih _ (upsertUser_teamName hl htn)

lemma saveTeam_phantom {st : Storage} {team : Team} {name : String}
    (hname : name ∈ st.teams) (hteam : team.teamName ≠ name)
    (husers : ∀ u ∈ st.users, u.teamName ≠ name) :
    phantomTeam name (Db.SaveTeam st team) := by
  constructor
  · unfold Db.SaveTeam
    split
    · exact hname
    · exact List.mem_append_left _ hname
  · intro u hu
    have hfil : ∀ v ∈ st.users.filter (fun u => u.teamName ≠ team.teamName),
        v.teamName ≠ name := fun v hv => husers v (List.mem_filter.mp hv).1
    exact foldl_upsertUser_teamName hteam team.members _ hfil u hu

lemma step_phantomTeam {name : String} {st : Storage}
    (h : phantomTeam name st) (op : Op) : phantomTeam name (step st op) := by
  obtain ⟨hname, husers⟩ := h
  cases op with
  | createTeam team =>
    show phantomTeam name (Service.CreateTeam st team).2
    unfold Service.CreateTeam
    by_cases hex : Db.TeamExists st team.teamName
    · simpa [hex] using ⟨hname, husers⟩
    · have hteam : team.teamName ≠ name := by
        intro hh
        apply hex
        rw [hh]
        unfold Db.TeamExists
        exact List.elem_iff.mpr hname
      have hcomp := foldl_saveUser_components team.teamName team.members st
      simp only [hex, if_false]
      refine saveTeam_phantom ?_ hteam ?_
      · rw [hcomp.1]; exact hname
      · rw [hcomp.2.2]
        exact foldl_upsertUser_teamName hteam team.members st.users husers
  | setUserActive userId isActive =>
    show phantomTeam name (Service.SetUserActive st userId isActive).2
    unfold Service.SetUserActive
    cases hu : Db.GetUser st userId with
    | none => exact ⟨hname, husers⟩
    | some user =>
      refine ⟨hname, ?_⟩
      have huser : user.teamName ≠ name := husers user (getUser_mem hu)
      exact upsertUser_teamName husers huser
  | createPullRequest prId prName authorId now =>
    have hc := createPullRequest_teams_users st prId prName authorId now
    exact ⟨hc.1 ▸ hname, hc.2 ▸ husers⟩
  | mergePullRequest prId now =>
    have hc := mergePullRequest_teams_users st prId now
    exact ⟨hc.1 ▸ hname, hc.2 ▸ husers⟩
  | reassignReviewer prId o n =>
    have hc := reassignReviewer_teams_users st prId o n
    exact ⟨hc.1 ▸ hname, hc.2 ▸ husers⟩

lemma runOps_phantomTeam {name : String} {st : Storage}
    (h : phantomTeam name st) (ops : List Op) : phantomTeam name (runOps st ops) := by
  induction ops generalizing st with
  | nil => exact h
  | cons op rest ih => exact ih (step_phantomTeam h op)

/-! ### Claim theorems -/

/-- C3: for an existing pull request whose status is `MERGED`,
`ReassignReviewer` fails with the Conflict (merged) error for every choice of
old and new reviewer id — in particular also when the old reviewer id is not
assigned — and the store is returned unchanged. -/
theorem reassignReviewer_merged_conflict (st : Storage) (prId : String)
    (pr : PullRequest) (oldReviewerId newReviewerId : String)
    (hget : Db.GetPullRequest st prId = some pr)
    (hm : pr.status = .MERGED) :
    Service.ReassignReviewer st prId oldReviewerId newReviewerId
      = (.error .prMerged, st) := by
  unfold Service.ReassignReviewer
  simp [hget, hm]

theorem reassignReviewer_merged_conflict_witness :
    Service.ReassignReviewer stMerged "pr1" "zz" "b" = (.error .prMerged, stMerged) :=
  reassignReviewer_merged_conflict stMerged "pr1"
    ⟨"pr1", "Feature", "a", .MERGED, ["b", "d"], some 5, some 9⟩ "zz" "b"
    (by decide) rfl

/-- C5: `CreatePullRequest` with an already registered pull-request id fails
with the `AlreadyExists` (PR) error and neither creates nor overwrites any
pull request (the store is returned unchanged). -/
theorem createPullRequest_duplicate_id (st : Storage) (prId prName authorId : String)
    (now : Nat) (h : Db.PullRequestExists st prId = true) :
    Service.CreatePullRequest st prId prName authorId now = (.error .prExists, st) := by
  unfold Service.CreatePullRequest
  simp [h]

theorem createPullRequest_duplicate_id_witness :
    Service.CreatePullRequest stPR "pr1" "Another" "b" 7 = (.error .prExists, stPR) :=
  createPullRequest_duplicate_id stPR "pr1" "Another" "b" 7 (by decide)

/-- C6: for an existing OPEN pull request and an old-reviewer id not in its
assigned-reviewers list, `ReassignReviewer` fails with the `NotAssigned`
error and the store (hence the record and its reviewer list) is unchanged. -/
theorem reassignReviewer_not_assigned (st : Storage) (prId : String)
    (pr : PullRequest) (oldReviewerId newReviewerId : String)
    (hget : Db.GetPullRequest st prId = some pr)
    (hopen : pr.status = .OPEN)
    (hnot : oldReviewerId ∉ pr.assignedReviewers) :
    Service.ReassignReviewer st prId oldReviewerId newReviewerId
      = (.error .reviewerNotAssigned, st) := by
  have hne : pr.status ≠ .MERGED := by rw [hopen]; intro hc; cases hc
  unfold Service.ReassignReviewer
  simp [hget, hne, replaceFirstReviewer_eq_none hnot]

theorem reassignReviewer_not_assigned_witness :
    Service.ReassignReviewer stPR "pr1" "zz" "b"
      = (.error .reviewerNotAssigned, stPR) :=
  reassignReviewer_not_assigned stPR "pr1"
    ⟨"pr1", "Feature", "a", .OPEN, ["b", "d"], some 5, none⟩ "zz" "b"
    (by decide) rfl (by decide)

/-- C7: `GetUserPullRequests u` returns exactly the stored pull requests whose
assigned-reviewers list contains `u`, projected to (id, name, author id,
status), in store order; when no pull request lists `u` it returns the empty
sequence rather than an error. -/
theorem getUserPullRequests_spec (st : Storage) (userId : String) :
    Service.GetUserPullRequests st userId
      = (st.prs.filter (fun pr => decide (userId ∈ pr.assignedReviewers))).map
          Service.toShort
    ∧ ((∀ pr ∈ st.prs, userId ∉ pr.assignedReviewers) →
        Service.GetUserPullRequests st userId = []) := by
  have h := getUserPullRequestsAux_eq userId st.prs
  refine ⟨h, ?_⟩
  intro hnone
  have hnil : st.prs.filter (fun pr => decide (userId ∈ pr.assignedReviewers)) = [] := by
    rw [List.filter_eq_nil_iff]
    intro pr hpr
    simpa using hnone pr hpr
  rw [show Service.GetUserPullRequests st userId
        = (st.prs.filter (fun pr => decide (userId ∈ pr.assignedReviewers))).map
            Service.toShort from h, hnil]
  rfl

theorem getUserPullRequests_spec_witness :
    Service.GetUserPullRequests stPR "d"
      = (stPR.prs.filter (fun pr => decide ("d" ∈ pr.assignedReviewers))).map
          Service.toShort
    ∧ ((∀ pr ∈ stPR.prs, "d" ∉ pr.assignedReviewers) →
        Service.GetUserPullRequests stPR "d" = []) :=
  getUserPullRequests_spec stPR "d"

/-- C8: for an existing user, `SetUserActive` changes only that user's active
flag: the pull-request table and team table are untouched, every other user
row is unchanged, and the target user differs only in `isActive`. -/
theorem setUserActive_frame (st : Storage) (userId : String) (isActive : Bool)
    (u : User) (hget : Db.GetUser st userId = some u) :
    (Service.SetUserActive st userId isActive).1 = .ok { u with isActive := isActive }
    ∧ (Service.SetUserActive st userId isActive).2.prs = st.prs
    ∧ (Service.SetUserActive st userId isActive).2.teams = st.teams
    ∧ Db.GetUser (Service.SetUserActive st userId isActive).2 userId
        = some { u with isActive := isActive }
    ∧ (∀ id, id ≠ userId →
        Db.GetUser (Service.SetUserActive st userId isActive).2 id
          = Db.GetUser st id) := by
  have hid : u.userId = userId := getUser_userId hget
  have hid' : ({ u with isActive := isActive } : User).userId = userId := hid
  unfold Service.SetUserActive
  rw [hget]
  refine ⟨rfl, rfl, rfl, ?_, ?_⟩
  · show Db.GetUser (Db.SaveUser st { u with isActive := isActive }) userId = _
    unfold Db.GetUser Db.SaveUser
    rw [← hid']
    exact find_upsertUser_self st.users { u with isActive := isActive }
  · intro id hne
    show Db.GetUser (Db.SaveUser st { u with isActive := isActive }) id = _
    unfold Db.GetUser Db.SaveUser
    exact find_upsertUser_other st.users _ id (by rw [hid']; exact hne)

theorem setUserActive_frame_witness :
    (Service.SetUserActive stTeam "b" false).1 = .ok ⟨"b", "B", "t", false⟩
    ∧ (Service.SetUserActive stTeam "b" false).2.prs = stTeam.prs
    ∧ Db.GetUser (Service.SetUserActive stTeam "b" false).2 "d"
        = Db.GetUser stTeam "d" := by
  have h := setUserActive_frame stTeam "b" false ⟨"b", "B", "t", true⟩ (by decide)
  exact ⟨h.1, h.2.1, h.2.2.2.2 "d" (by decide)⟩

/-- C2: `MergePullRequest` is idempotent. If the stored record is already
`MERGED` the call returns it unchanged, with no re-write (the store is
returned as is) and no error; if it is `OPEN` the call sets the status to
`MERGED` and `mergedAt` to the current time and persists; and a second merge
after any successful merge returns exactly the same record and store. -/
theorem mergePullRequest_idempotent (st : Storage) (prId : String) (t₁ t₂ : Nat)
    (pr : PullRequest) (hget : Db.GetPullRequest st prId = some pr) :
    (pr.status = .MERGED → Service.MergePullRequest st prId t₁ = (.ok pr, st))
    ∧ (pr.status = .OPEN →
        Service.MergePullRequest st prId t₁
          = (.ok { pr with status := .MERGED, mergedAt := some t₁ },
             Db.SavePullRequest st { pr with status := .MERGED, mergedAt := some t₁ }))
    ∧ (∀ pr₁ st₁, Service.MergePullRequest st prId t₁ = (.ok pr₁, st₁) →
        pr₁.status = .MERGED ∧ Service.MergePullRequest st₁ prId t₂ = (.ok pr₁, st₁)) := by
  have hid : pr.pullRequestId = prId := getPullRequest_pullRequestId hget
  refine ⟨?_, ?_, ?_⟩
  · intro hm
    unfold Service.MergePullRequest
    simp [hget, hm]
  · intro ho
    have hne : pr.status ≠ .MERGED := by rw [ho]; intro hc; cases hc
    unfold Service.MergePullRequest
    simp [hget, hne]
  · intro pr₁ st₁ h₁
    unfold Service.MergePullRequest at h₁
    rw [hget] at h₁
    dsimp only at h₁
    by_cases hm : pr.status = .MERGED
    · rw [if_neg (fun hc => hc hm)] at h₁
      have hpr : pr = pr₁ := Except.ok.inj (congrArg Prod.fst h₁)
      have hst : st = st₁ := congrArg Prod.snd h₁
      subst hpr
      subst hst
      refine ⟨hm, ?_⟩
      unfold Service.MergePullRequest
      simp [hget, hm]
    · rw [if_pos hm] at h₁
      have hpr : ({ pr with status := .MERGED, mergedAt := some t₁ } : PullRequest)
          = pr₁ := Except.ok.inj (congrArg Prod.fst h₁)
      have hst : Db.SavePullRequest st { pr with status := .MERGED, mergedAt := some t₁ }
          = st₁ := congrArg Prod.snd h₁
      subst hpr
      subst hst
      refine ⟨rfl, ?_⟩
      have hget' : Db.GetPullRequest st
          ({ pr with status := .MERGED, mergedAt := some t₁ } : PullRequest).pullRequestId
          = some pr := by
        show Db.GetPullRequest st pr.pullRequestId = some pr
        rw [hid]
        exact hget
      have hsave := getPullRequest_savePullRequest_self st
        { pr with status := .MERGED, mergedAt := some t₁ }
      rw [hget'] at hsave
      have hks : Db.GetPullRequest
          (Db.SavePullRequest st { pr with status := .MERGED, mergedAt := some t₁ }) prId
          = some { pr with status := .MERGED, mergedAt := some t₁ } := by
        rw [show prId
              = ({ pr with status := .MERGED, mergedAt := some t₁ } : PullRequest).pullRequestId
            from hid.symm]
        exact hsave
      unfold Service.MergePullRequest
      simp [hks]

theorem mergePullRequest_idempotent_witness :
    Service.MergePullRequest stPR "pr1" 9
      = (.ok ⟨"pr1", "Feature", "a", .MERGED, ["b", "d"], some 5, some 9⟩,
         Db.SavePullRequest stPR ⟨"pr1", "Feature", "a", .MERGED, ["b", "d"], some 5, some 9⟩)
    ∧ Service.MergePullRequest stMerged "pr1" 42
        = (.ok ⟨"pr1", "Feature", "a", .MERGED, ["b", "d"], some 5, some 9⟩, stMerged) := by
  have h := mergePullRequest_idempotent stPR "pr1" 9 42
    ⟨"pr1", "Feature", "a", .OPEN, ["b", "d"], some 5, none⟩ (by decide)
  exact ⟨h.2.1 rfl, (h.2.2 _ stMerged (h.2.1 rfl)).2⟩

/-- C1: when the pull-request id is fresh, the author resolves, and the
author's team resolves, the assigned reviewer list is exactly the first two
team members, in stored order, that are distinct from the author and active
at selection time; it has length at most 2, never contains the author, never
contains an inactive id, and when the selection is nonempty the pull request
is created with precisely that list. With at least 2 eligible teammates the
list has length exactly 2. -/
theorem createPullRequest_reviewer_selection (st : Storage)
    (prId prName authorId : String) (now : Nat) (author : User) (team : Team)
    (hfresh : Db.PullRequestExists st prId = false)
    (hA : Db.GetUser st authorId = some author)
    (hT : Db.GetTeam st author.teamName = some team) :
    Service.findActiveReviewers st team authorId 2
        = ((team.members.filter (eligible st authorId)).map TeamMember.userId).take 2
    ∧ (Service.findActiveReviewers st team authorId 2).length ≤ 2
    ∧ authorId ∉ Service.findActiveReviewers st team authorId 2
    ∧ (∀ r ∈ Service.findActiveReviewers st team authorId 2, isActiveUser st r = true)
    ∧ (team.members.filter (eligible st authorId) ≠ [] →
        Service.CreatePullRequest st prId prName authorId now
          = (.ok { pullRequestId := prId, pullRequestName := prName,
                   authorId := authorId, status := .OPEN,
                   assignedReviewers := Service.findActiveReviewers st team authorId 2,
                   createdAt := some now, mergedAt := none },
             Db.SavePullRequest st
               { pullRequestId := prId, pullRequestName := prName,
                 authorId := authorId, status := .OPEN,
                 assignedReviewers := Service.findActiveReviewers st team authorId 2,
                 createdAt := some now, mergedAt := none }))
    ∧ (2 ≤ (team.members.filter (eligible st authorId)).length →
        (Service.findActiveReviewers st team authorId 2).length = 2) := by
  have heq := findActiveReviewers_eq st team authorId 2 (by norm_num)
  refine ⟨heq, ?_, ?_, ?_, ?_, ?_⟩
  · rw [heq]
    exact List.length_take_le 2 _
  · intro hc
    exact (mem_findActiveReviewers hc).1 rfl
  · intro r hr
    exact (mem_findActiveReviewers hr).2
  · intro hne
    have hlen : ¬ (Service.findActiveReviewers st team authorId 2).length = 0 := by
      rw [heq, List.length_take, List.length_map]
      have : 0 < (team.members.filter (eligible st authorId)).length :=
        List.length_pos.mpr hne
      omega
    unfold Service.CreatePullRequest
    simp [hfresh, hA, hT, hlen]
  · intro h2
    rw [heq, List.length_take, List.length_map]
    omega

theorem createPullRequest_reviewer_selection_witness :
    Service.findActiveReviewers stTeam teamW "a" 2 = ["b", "d"]
    ∧ "a" ∉ Service.findActiveReviewers stTeam teamW "a" 2
    ∧ (Service.findActiveReviewers stTeam teamW "a" 2).length = 2 := by
  have h := createPullRequest_reviewer_selection stTeam "prW" "W" "a" 0
    ⟨"a", "A", "t", true⟩ teamW (by decide) (by decide) (by decide)
  refine ⟨?_, h.2.2.1, h.2.2.2.2.2 (by decide)⟩
  rw [h.1]
  decide

/-- C9: in this revision, a fresh pull-request id whose author and team both
resolve but whose team offers zero eligible reviewers (no member other than
the author is stored as active) makes `CreatePullRequest` fail with the
`NoCandidate` error, persisting nothing. -/
theorem createPullRequest_no_candidate (st : Storage)
    (prId prName authorId : String) (now : Nat) (author : User) (team : Team)
    (hfresh : Db.PullRequestExists st prId = false)
    (hA : Db.GetUser st authorId = some author)
    (hT : Db.GetTeam st author.teamName = some team)
    (hempty : team.members.filter (eligible st authorId) = []) :
    Service.CreatePullRequest st prId prName authorId now
      = (.error .noCandidate, st) := by
  have heq := findActiveReviewers_eq st team authorId 2 (by norm_num)
  rw [hempty] at heq
  simp only [List.map_nil, List.take_nil] at heq
  unfold Service.CreatePullRequest
  simp [hfresh, hA, hT, heq]

theorem createPullRequest_no_candidate_witness :
    Service.CreatePullRequest stTeamSolo "pr9" "Solo" "e" 3
      = (.error .noCandidate, stTeamSolo) :=
  createPullRequest_no_candidate stTeamSolo "pr9" "Solo" "e" 3
    ⟨"e", "E", "s", true⟩ ⟨"s", [⟨"e", "E", true⟩, ⟨"f", "F", false⟩]⟩
    (by decide) (by decide) (by decide) (by decide)

/-- C4 (counterexample): starting from the empty store, creating team `t`
with active members `a` and `b`, letting `a` open `pr1` (reviewer `b`) and
then reassigning reviewer `b` to `a` produces a reachable state in which the
pull request's author `a` is an element of its assigned-reviewers list, so
the claimed invariant is not preserved by `ReassignReviewer` for all choices
of the new reviewer id. -/
theorem author_reviewer_invariant_counterexample :
    Db.GetPullRequest stAuthorReviewer "pr1"
      = some { pullRequestId := "pr1", pullRequestName := "PR", authorId := "a",
               status := .OPEN, assignedReviewers := ["a"], createdAt := some 0,
               mergedAt := none }
    ∧ ¬ authorNotReviewer stAuthorReviewer := by
  refine ⟨by decide, ?_⟩
  unfold authorNotReviewer
  decide

/-- C4 (amended): the author-not-reviewer invariant is preserved by
`CreateTeam`, `SetUserActive`, `CreatePullRequest` and `MergePullRequest`
unconditionally, and by `ReassignReviewer` whenever the new reviewer id
differs from the target pull request's author id (the code performs no such
check itself). -/
theorem author_reviewer_invariant_preserved (st : Storage)
    (hinv : authorNotReviewer st) :
    (∀ team, authorNotReviewer (Service.CreateTeam st team).2)
    ∧ (∀ userId isActive, authorNotReviewer (Service.SetUserActive st userId isActive).2)
    ∧ (∀ prId prName authorId now,
        authorNotReviewer (Service.CreatePullRequest st prId prName authorId now).2)
    ∧ (∀ prId now, authorNotReviewer (Service.MergePullRequest st prId now).2)
    ∧ (∀ prId oldReviewerId newReviewerId,
        (∀ pr, Db.GetPullRequest st prId = some pr → newReviewerId ≠ pr.authorId) →
        authorNotReviewer (Service.ReassignReviewer st prId oldReviewerId newReviewerId).2) := by
  refine ⟨?_, ?_, ?_, ?_, ?_⟩
  · intro team pr hpr
    rw [createTeam_prs] at hpr
    exact hinv pr hpr
  · intro userId isActive pr hpr
    rw [setUserActive_prs] at hpr
    exact hinv pr hpr
  · intro prId prName authorId now pr hpr
    unfold Service.CreatePullRequest at hpr
    cases hex : Db.PullRequestExists st prId with
    | true =>
      rw [hex] at hpr
      simp only [if_true] at hpr
      exact hinv pr hpr
    | false =>
      rw [hex] at hpr
      simp only [Bool.false_eq_true, if_false] at hpr
      cases hA : Db.GetUser st authorId with
      | none =>
        rw [hA] at hpr
        exact hinv pr hpr
      | some author =>
        rw [hA] at hpr
        dsimp only at hpr
        cases hT : Db.GetTeam st author.teamName with
        | none =>
          rw [hT] at hpr
          exact hinv pr hpr
        | some team =>
          rw [hT] at hpr
          dsimp only at hpr
          by_cases hlen : (Service.findActiveReviewers st team authorId 2).length = 0
          · rw [if_pos hlen] at hpr
            exact hinv pr hpr
          · rw [if_neg hlen] at hpr
            have hfr : ∀ e ∈ st.prs,
                e.pullRequestId
                  ≠ ({ pullRequestId := prId, pullRequestName := prName,
                       authorId := authorId, status := .OPEN,
                       assignedReviewers := Service.findActiveReviewers st team authorId 2,
                       createdAt := some now, mergedAt := none } : PullRequest).pullRequestId := by
              intro e he hc
              have : st.prs.any (fun x => x.pullRequestId = prId) = true :=
                List.any_eq_true.mpr ⟨e, he, by simpa using hc⟩
              rw [show st.prs.any (fun x => x.pullRequestId = prId)
                    = Db.PullRequestExists st prId from rfl, hex] at this
              cases this
            rw [show (Db.SavePullRequest st _).prs
                  = Db.upsertPullRequest st.prs _ from rfl,
                upsertPullRequest_of_fresh hfr] at hpr
            rcases List.mem_append.mp hpr with hpr | hpr
            · exact hinv pr hpr
            · have hpr' : pr
                  = { pullRequestId := prId, pullRequestName := prName,
                      authorId := authorId, status := .OPEN,
                      assignedReviewers := Service.findActiveReviewers st team authorId 2,
                      createdAt := some now, mergedAt := none } := by
                simpa using hpr
              rw [hpr']
              intro hc
              exact (mem_findActiveReviewers hc).1 rfl
  · intro prId now pr hpr
    unfold Service.MergePullRequest at hpr
    cases hget : Db.GetPullRequest st prId with
    | none =>
      rw [hget] at hpr
      exact hinv pr hpr
    | some pr0 =>
      have hid : pr0.pullRequestId = prId := getPullRequest_pullRequestId hget
      rw [hget] at hpr
      dsimp only at hpr
      by_cases hm : pr0.status = .MERGED
      · rw [if_neg (fun hc => hc hm)] at hpr
        exact hinv pr hpr
      · rw [if_pos hm] at hpr
        rcases mem_upsertPullRequest hpr with h | h | ⟨e, he, hxe⟩
        · exact hinv pr h
        · rw [h]
          exact hinv pr0 (getPullRequest_mem hget)
        · have he' : Db.GetPullRequest st
              ({ pr0 with status := .MERGED, mergedAt := some now } : PullRequest).pullRequestId
              = some e := he
          rw [show ({ pr0 with status := .MERGED, mergedAt := some now } : PullRequest).pullRequestId
                = prId from hid, hget] at he'
          have hee : e = pr0 := (Option.some.inj he').symm
          rw [hxe, hee]
          exact hinv pr0 (getPullRequest_mem hget)
  · intro prId oldReviewerId newReviewerId hnew pr hpr
    unfold Service.ReassignReviewer at hpr
    cases hget : Db.GetPullRequest st prId with
    | none =>
      rw [hget] at hpr
      exact hinv pr hpr
    | some pr0 =>
      have hid : pr0.pullRequestId = prId := getPullRequest_pullRequestId hget
      have hnew0 : newReviewerId ≠ pr0.authorId := hnew pr0 hget
      rw [hget] at hpr
      dsimp only at hpr
      by_cases hm : pr0.status = .MERGED
      · rw [if_pos hm] at hpr
        exact hinv pr hpr
      · rw [if_neg hm] at hpr
        cases hrep : Service.replaceFirstReviewer oldReviewerId newReviewerId
            pr0.assignedReviewers with
        | none =>
          rw [hrep] at hpr
          exact hinv pr hpr
        | some reviewers' =>
          have hmem : ∀ x ∈ reviewers', x = newReviewerId ∨ x ∈ pr0.assignedReviewers :=
            mem_replaceFirstReviewer hrep
          have hnotin : pr0.authorId ∉ reviewers' := by
            intro hc
            rcases hmem _ hc with h | h
            · exact hnew0 h.symm
            · exact hinv pr0 (getPullRequest_mem hget) h
          rw [hrep] at hpr
          dsimp only at hpr
          rcases mem_upsertPullRequest hpr with h | h | ⟨e, he, hxe⟩
          · exact hinv pr h
          · rw [h]
            exact hnotin
          · have he' : Db.GetPullRequest st
                ({ pr0 with assignedReviewers := reviewers' } : PullRequest).pullRequestId
                = some e := he
            rw [show ({ pr0 with assignedReviewers := reviewers' } : PullRequest).pullRequestId
                  = prId from hid, hget] at he'
            have hee : e = pr0 := (Option.some.inj he').symm
            rw [hxe, hee]
            exact hnotin

theorem author_reviewer_invariant_preserved_witness :
    authorNotReviewer (Service.MergePullRequest stPR "pr1" 9).2
    ∧ authorNotReviewer (Service.ReassignReviewer stPR "pr1" "b" "x").2 := by
  have h := author_reviewer_invariant_preserved stPR
    (by unfold authorNotReviewer; decide)
  refine ⟨h.2.2.2.1 "pr1" 9, h.2.2.2.2 "pr1" "b" "x" ?_⟩
  intro pr hpr
  have hlit : Db.GetPullRequest stPR "pr1"
      = some ⟨"pr1", "Feature", "a", .OPEN, ["b", "d"], some 5, none⟩ := by decide
  have hpr' := Option.some.inj (hlit.symm.trans hpr)
  rw [← hpr']
  decide

/-- C10: creating a team with an empty members list succeeds when the name is
fresh, yet the team is then unretrievable: `GetTeam` on that name fails with
`NotFound` immediately, and still fails after any further sequence of
service calls, because the store reports a team with zero member rows as
nonexistent. -/
theorem createTeam_empty_members_unretrievable (st : Storage) (name : String)
    (ops : List Op) (hfresh : Db.TeamExists st name = false) :
    (Service.CreateTeam st ⟨name, []⟩).1 = .ok ()
    ∧ Service.GetTeam (Service.CreateTeam st ⟨name, []⟩).2 name = .error .teamNotFound
    ∧ Service.GetTeam (runOps (Service.CreateTeam st ⟨name, []⟩).2 ops) name
        = .error .teamNotFound := by
  have h2 : Service.CreateTeam st ⟨name, []⟩ = (.ok (), Db.SaveTeam st ⟨name, []⟩) := by
    unfold Service.CreateTeam
    rw [show Db.TeamExists st (⟨name, []⟩ : Team).teamName = false from hfresh]
    rfl
  have hphant : phantomTeam name (Db.SaveTeam st ⟨name, []⟩) := by
    constructor
    · show name ∈ (if st.teams.contains name then st.teams else st.teams ++ [name])
      rw [show st.teams.contains name = false from hfresh]
      simp
    · intro u hu
      have hu' : u ∈ st.users.filter (fun v => v.teamName ≠ name) := hu
      exact of_decide_eq_true (List.mem_filter.mp hu').2
  refine ⟨by rw [h2], ?_, ?_⟩
  · rw [h2]
    unfold Service.GetTeam
    rw [getTeam_eq_none_of_noMembers hphant.2]
  · rw [h2]
    unfold Service.GetTeam
    rw [getTeam_eq_none_of_noMembers (runOps_phantomTeam hphant ops).2]

theorem createTeam_empty_members_unretrievable_witness :
    (Service.CreateTeam stTeam ⟨"ghost", []⟩).1 = .ok ()
    ∧ Service.GetTeam (Service.CreateTeam stTeam ⟨"ghost", []⟩).2 "ghost"
        = .error .teamNotFound
    ∧ Service.GetTeam
        (runOps (Service.CreateTeam stTeam ⟨"ghost", []⟩).2
          [ .createPullRequest "pr1" "Feature" "a" 5,
            .setUserActive "b" false,
            .mergePullRequest "pr1" 9 ]) "ghost"
        = .error .teamNotFound :=
  createTeam_empty_members_unretrievable stTeam "ghost"
    [ .createPullRequest "pr1" "Feature" "a" 5,
      .setUserActive "b" false,
      .mergePullRequest "pr1" 9 ] (by decide)

end PrReviewer
